import Mathlib

/-!
Verification of the document ingestion and chunking pipeline of the
medical-chatbot repository (file src/helper.py): the directory loader
load_medical_documents_from_directory, the chunk splitter
split_documents_into_semantic_chunks, and the embedding-model initializer
initialize_medical_embedding_model.

Modelling conventions:
- Python strings are lists of characters (List Char); Python ints are Int.
- Python dicts (document metadata) are association lists with first-match
  lookup; dict.update overwrites an existing key in place or appends.
- Exceptions are Except values; the error taxonomy follows the code
  (FileNotFoundError, ValueError).
- External effects (the PyPDF2 reader, the HuggingFace model) are oracles:
  their outcomes are inputs to the modelled functions, so that the control
  flow of helper.py around them is translated exactly.
- The langchain RecursiveCharacterTextSplitter is third-party code not in
  the repository; its splitting core is modelled from the specification
  (section 4.2) and marked as such below.
-/

namespace MedChatbot

/-- Scalar metadata values stored in a document metadata mapping. -/
inductive MVal where
  | str (s : String)
  | int (n : Int)
deriving DecidableEq, Repr

/-- Python dict with string keys, modelled as an association list. -/
abbrev Metadata := List (String × MVal)

/-- Dict lookup: first binding of the key, if any. -/
def metaLookup : Metadata → String → Option MVal
  | [], _ => none
  | (k1, v1) :: rest, k => if k1 = k then some v1 else metaLookup rest k

/-- Dict update of a single key: overwrite in place if present, else append
(the semantics of a Python dict assignment or update for one key). -/
def metaSet : Metadata → String → MVal → Metadata
  | [], k, v => [(k, v)]
  | (k1, v1) :: rest, k, v =>
    if k1 = k then (k, v) :: rest else (k1, v1) :: metaSet rest k v

/-- LangChain Document: page_content plus a metadata dict. -/
structure Document where
  page_content : List Char
  metadata : Metadata
deriving DecidableEq, Repr

/-- Error taxonomy of the pipeline: FileNotFoundError and ValueError as
raised by helper.py, with their message strings. -/
inductive PipelineError where
  | notFound (msg : String)
  | invalidInput (msg : String)
deriving DecidableEq, Repr

/-! ## Directory loader (helper.py, load_medical_documents_from_directory)

The filesystem and the PyPDF2 reader are oracles: a PathState says whether
the path exists and is a directory, and each PDF file carries the outcome
of opening/parsing it (none when open or PdfReader raises) and, on
success, the outcome of extract_text for each page. -/

/-- Outcome of page.extract_text() for one page: an exception, or text. -/
inductive PageResult where
  | failure
  | text (t : List Char)
deriving DecidableEq, Repr

/-- One PDF file found by the glob, with the oracle outcome of parsing it.
pages = none models an exception from open or PyPDF2.PdfReader; otherwise
the list gives each page's extract_text outcome. -/
structure PdfFile where
  path : String
  name : String
  pages : Option (List PageResult)
deriving DecidableEq, Repr

/-- State of the data_directory path: missing, exists but not a directory,
or a directory containing the listed PDF files (in enumeration order). -/
inductive PathState where
  | missing
  | notDir
  | dir (pdf_files : List PdfFile)
deriving DecidableEq, Repr

/-- Python str.strip from the left: drop leading whitespace. -/
def trimChars (s : List Char) : List Char :=
  ((s.dropWhile Char.isWhitespace).reverse.dropWhile Char.isWhitespace).reverse

/-- One iteration of the page loop in helper.py lines 86-94: on extraction
failure the page is skipped; a page whose text strips to empty is skipped;
otherwise its text plus a paragraph separator is appended. -/
def processPage (acc : List Char) (p : PageResult) : List Char :=
  match p with
  | .failure => acc
  | .text t => if trimChars t = [] then acc else acc ++ t ++ ['\n', '\n']

/-- The per-file body of helper.py lines 76-115: a file whose open or parse
fails is skipped (none); otherwise the pages are concatenated and a
Document is created when the stripped text is non-empty, carrying the
source path, filename, type tag and page count in its metadata. -/
def processFile (f : PdfFile) : Option Document :=
  match f.pages with
  | none => none
  | some pages =>
    if trimChars (pages.foldl processPage []) = [] then none
    else some
      { page_content := trimChars (pages.foldl processPage [])
        metadata :=
          [("source", .str f.path),
           ("filename", .str f.name),
           ("document_type", .str "medical_pdf"),
           ("page_count", .int pages.length)] }

/-- helper.py lines 53-126: validate the path, return [] when no PDF files
match, otherwise process each file in order, skipping failing ones. -/
def load_medical_documents_from_directory (data_directory : String)
    (ps : PathState) : Except PipelineError (List Document) :=
  match ps with
  | .missing => .error (.notFound ("Directory not found: " ++ data_directory))
  | .notDir => .error (.invalidInput ("Path is not a directory: " ++ data_directory))
  | .dir pdf_files =>
    if pdf_files = [] then .ok []
    else .ok (pdf_files.filterMap processFile)

/-! ## Splitting core

Modelled from the spec: the recursive character splitter used by helper.py
is third-party library code not present in the repository. Section 4.2 of
the specification describes it: break text at the highest-priority
boundary that keeps each piece at most max_chunk_size characters, trying
boundary classes in descending priority (paragraph break, line break,
sentence punctuation, clause punctuation, single space), with a raw
character boundary as the guaranteed fallback; each chunk after the first
overlaps the previous chunk by up to chunk_overlap characters, and each
new chunk start strictly advances past the previous chunk start. -/

/-- Modelled from the spec: the separator classes of section 4.2 in
descending priority, matching the separator list passed to the splitter
in helper.py lines 176-186 (the empty separator is the fallback handled
in findSplit). -/
def separatorClasses : List (List Char) :=
  [['\n', '\n'], ['\n'], ['.', ' '], ['?', ' '], ['!', ' '], [';', ' '],
   [',', ' '], [' ']]

/-- Modelled from the spec: position i of s is a boundary of class sep
when the piece before i ends with the separator sep. -/
def boundaryAt (s sep : List Char) (i : Nat) : Bool :=
  sep.length ≤ i && sep.isPrefixOf (s.drop (i - sep.length))

/-- Modelled from the spec: the largest boundary position of class sep
that is positive and at most the limit, if any. -/
def bestBoundary (s sep : List Char) (limit : Nat) : Option Nat :=
  ((List.range (limit + 1)).filter (fun i => decide (0 < i) && boundaryAt s sep i)).getLast?

/-- Modelled from the spec: the split position for an over-long text:
the best boundary of the highest-priority class having one, and the raw
character position limit as the guaranteed fallback. -/
def findSplit (s : List Char) (limit : Nat) : Nat :=
  match separatorClasses.findSome? (fun sep => bestBoundary s sep limit) with
  | some i => i
  | none => limit

/-- Modelled from the spec: recursive splitting with fuel. A text of
length at most the limit is a single final chunk; otherwise the piece up
to the split position is emitted and splitting continues after advancing
by the split position minus the overlap, always by at least one character
(the progress invariant of section 9). The fuel is an upper bound on the
number of chunks; splitText supplies enough. -/
def splitTextAux (limit overlap : Nat) : Nat → List Char → List (List Char)
  | 0, _ => []
  | fuel + 1, s =>
    if s = [] then []
    else if s.length ≤ limit then [s]
    else
      (s.take (findSplit s limit)) ::
        splitTextAux limit overlap fuel (s.drop (max (findSplit s limit - overlap) 1))

/-- Modelled from the spec: split a text into the ordered list of chunk
contents. -/
def splitText (limit overlap : Nat) (s : List Char) : List (List Char) :=
  splitTextAux limit overlap s.length s

/-! ## Chunk splitter pipeline (helper.py, split_documents_into_semantic_chunks) -/

/-- helper.py lines 205-211: copy the parent metadata and update it with
the chunk index, the total chunk count, the chunk character length and
the parent document index. -/
def enhanceMetadata (parentMeta : Metadata)
    (chunk_index total_chunks chunk_sz parent_document_index : Nat) : Metadata :=
  metaSet
    (metaSet
      (metaSet
        (metaSet parentMeta "chunk_index" (.int chunk_index))
        "total_chunks" (.int total_chunks))
      "chunk_size" (.int chunk_sz))
    "parent_document_index" (.int parent_document_index)

/-- helper.py lines 203-212: the enumerate loop over one document's
chunks, assigning each fresh chunk its enhanced metadata. -/
def enhanceChunks (parentMeta : Metadata) (total_chunks parent_document_index : Nat) :
    Nat → List (List Char) → List Document
  | _, [] => []
  | chunk_index, p :: ps =>
    { page_content := p
      metadata := enhanceMetadata parentMeta chunk_index total_chunks
        p.length parent_document_index }
      :: enhanceChunks parentMeta total_chunks parent_document_index (chunk_index + 1) ps

/-- helper.py lines 199-212 for one document: split its content and attach
enhanced metadata to every resulting chunk. -/
def perDocChunks (limit overlap parent_document_index : Nat) (document : Document) :
    List Document :=
  enhanceChunks document.metadata
    (splitText limit overlap document.page_content).length parent_document_index 0
    (splitText limit overlap document.page_content)

/-- helper.py lines 191-221: the loop over all documents. The second
component threads the input documents through the loop: the loop body
only reads document.page_content and document.metadata (the metadata
update targets a fresh copy assigned to the fresh chunk object), so each
document emerges unchanged. -/
def processDocsFull (limit overlap : Nat) :
    Nat → List Document → (List Document × List Document)
  | _, [] => ([], [])
  | doc_index, d :: ds =>
    let rest := processDocsFull limit overlap (doc_index + 1) ds
    (perDocChunks limit overlap doc_index d ++ rest.1, d :: rest.2)

/-- helper.py lines 155-232 with the frame made explicit: parameter
validation in source order, the empty-input early return, then the
document loop; the result pairs the produced chunks with the state of the
input documents after the call. -/
def split_documents_into_semantic_chunks_full (documents : List Document)
    (chunk_size chunk_overlap : Int) :
    Except PipelineError (List Document × List Document) :=
  if chunk_size ≤ 0 then .error (.invalidInput "chunk_size must be positive")
  else if chunk_overlap < 0 then .error (.invalidInput "chunk_overlap cannot be negative")
  else if chunk_size ≤ chunk_overlap then
    .error (.invalidInput "chunk_overlap must be less than chunk_size")
  else if documents = [] then .ok ([], [])
  else .ok (processDocsFull chunk_size.toNat chunk_overlap.toNat 0 documents)

/-- helper.py lines 129-236: the chunks returned to the caller. -/
def split_documents_into_semantic_chunks (documents : List Document)
    (chunk_size chunk_overlap : Int) : Except PipelineError (List Document) :=
  (split_documents_into_semantic_chunks_full documents chunk_size chunk_overlap).map Prod.fst

/-! ## Embedding model initializer (helper.py, initialize_medical_embedding_model)

The HuggingFace library is an oracle: an EmbedEnv says what constructing
the model and embedding a query would return. -/

/-- The model configuration fixed in helper.py lines 265-275. -/
structure ModelConfig where
  model_name : String
  device : String
  trust_remote_code : Bool
  normalize_embeddings : Bool
  batch_size : Nat
deriving DecidableEq, Repr

/-- A constructed HuggingFaceEmbeddings handle, carrying its fixed
configuration. -/
structure HFModel where
  config : ModelConfig
deriving DecidableEq, Repr

/-- Oracle for the external HuggingFace calls: constructing the model and
embedding a query, each of which may raise. -/
structure EmbedEnv where
  construct : ModelConfig → Except String HFModel
  embed_query : HFModel → String → Except String (List Int)

/-- helper.py lines 265-275: the configuration built for a model name. -/
def medicalModelConfiguration (model_name : String) : ModelConfig :=
  { model_name := model_name
    device := "cpu"
    trust_remote_code := false
    normalize_embeddings := true
    batch_size := 32 }

/-- The sample query of the self-test in helper.py line 281. -/
def sampleMedicalQuery : String := "What are the common symptoms of hypertension?"

/-- helper.py lines 280-291: the self-test block. Embedding the sample
query decides whether the freshly constructed handle is returned. -/
def selfTestResult (env : EmbedEnv) (medical_embeddings : HFModel) : Option HFModel :=
  match env.embed_query medical_embeddings sampleMedicalQuery with
  | .error _ => none
  | .ok _ => some medical_embeddings

/-- helper.py lines 261-298: construct the model; on failure return none.
Then run the self-test; on failure return none. Only then return the
constructed handle. -/
def initialize_medical_embedding_model (env : EmbedEnv) (model_name : String) :
    Option HFModel :=
  match env.construct (medicalModelConfiguration model_name) with
  | .error _ => none
  | .ok medical_embeddings => selfTestResult env medical_embeddings

/-! ## Concrete example data used by the witness theorems -/

/-- A readable example PDF file yielding one page of text. -/
def exGoodFile1 : PdfFile :=
  { path := "Documents/a.pdf", name := "a.pdf", pages := some [.text ['H', 'i']] }

/-- An example PDF file whose open or parse raises. -/
def exBadFile : PdfFile :=
  { path := "Documents/b.pdf", name := "b.pdf", pages := none }

/-- A second readable example PDF file. -/
def exGoodFile2 : PdfFile :=
  { path := "Documents/c.pdf", name := "c.pdf", pages := some [.text ['Y', 'o']] }

/-- The document the loader produces from exGoodFile1. -/
def exDocA : Document :=
  { page_content := ['H', 'i']
    metadata :=
      [("source", .str "Documents/a.pdf"),
       ("filename", .str "a.pdf"),
       ("document_type", .str "medical_pdf"),
       ("page_count", .int 1)] }

/-- A small in-memory document fed to the splitter in witnesses. -/
def exDocHi : Document := { page_content := ['H', 'i'], metadata := [] }

/-- The single chunk the splitter produces from exDocHi at size 4,
overlap 1. -/
def exChunkHi : Document :=
  { page_content := ['H', 'i']
    metadata :=
      [("chunk_index", .int 0),
       ("total_chunks", .int 1),
       ("chunk_size", .int 2),
       ("parent_document_index", .int 0)] }

/-! ## Helper lemmas -/

/-- Dropping a prefix cannot make the head satisfy the dropped predicate. -/
theorem dropWhile_head_false (p : Char → Bool) :
    ∀ (l : List Char) (c : Char), (l.dropWhile p).head? = some c → p c = false := by
  intro l
  induction l with
  | nil => intro c h; simp [List.dropWhile] at h
  | cons a t ih =>
    intro c h
    rw [List.dropWhile_cons] at h
    by_cases hp : p a = true
    · rw [if_pos hp] at h
      exact ih c h
    · rw [if_neg hp] at h
      simp only [List.head?_cons, Option.some.injEq] at h
      subst h
      exact Bool.not_eq_true _ |>.mp hp

/-- dropWhile keeps the last element when its result is non-empty. -/
theorem dropWhile_getLast_eq (p : Char → Bool) :
    ∀ (l : List Char), l.dropWhile p ≠ [] →
      (l.dropWhile p).getLast? = l.getLast? := by
  intro l
  induction l with
  | nil => intro h; simp [List.dropWhile] at h
  | cons a t ih =>
    intro h
    rw [List.dropWhile_cons] at h ⊢
    by_cases hp : p a = true
    · rw [if_pos hp] at h ⊢
      have ht : t ≠ [] := by
        intro he
        rw [he] at h
        simp [List.dropWhile] at h
      rw [ih h]
      cases t with
      | nil => exact absurd rfl ht
      | cons b t2 => rw [List.getLast?_cons_cons]
    · rw [if_neg hp]

/-- The first character of a stripped string is not whitespace. -/
theorem trimChars_head (s : List Char) (c : Char)
    (h : (trimChars s).head? = some c) : c.isWhitespace = false := by
  unfold trimChars at h
  rw [List.head?_reverse] at h
  have hne : (s.dropWhile Char.isWhitespace).reverse.dropWhile Char.isWhitespace ≠ [] := by
    intro he
    rw [he] at h
    simp at h
  rw [dropWhile_getLast_eq _ _ hne, List.getLast?_reverse] at h
  exact dropWhile_head_false _ _ _ h

/-- The last character of a stripped string is not whitespace. -/
theorem trimChars_getLast (s : List Char) (c : Char)
    (h : (trimChars s).getLast? = some c) : c.isWhitespace = false := by
  unfold trimChars at h
  rw [List.getLast?_reverse] at h
  exact dropWhile_head_false _ _ _ h

/-- The last element of a list is a member. -/
theorem getLast?_mem {α : Type} : ∀ (l : List α) (a : α), l.getLast? = some a → a ∈ l := by
  intro l
  induction l with
  | nil => intro a h; simp at h
  | cons b t ih =>
    intro a h
    cases t with
    | nil =>
      rw [List.getLast?_singleton] at h
      simp only [Option.some.injEq] at h
      subst h
      exact List.mem_singleton_self _
    | cons c2 t2 =>
      rw [List.getLast?_cons_cons] at h
      exact List.mem_cons_of_mem _ (ih a h)

/-- A best boundary is positive and within the limit. -/
theorem bestBoundary_bounds (s sep : List Char) (limit i : Nat)
    (h : bestBoundary s sep limit = some i) : 0 < i ∧ i ≤ limit := by
  unfold bestBoundary at h
  have hmem := getLast?_mem _ _ h
  rw [List.mem_filter] at hmem
  obtain ⟨hr, hp⟩ := hmem
  rw [List.mem_range] at hr
  simp only [Bool.and_eq_true, decide_eq_true_eq] at hp
  exact ⟨hp.1, by omega⟩

/-- The split position never exceeds the limit. -/
theorem findSplit_le (s : List Char) (limit : Nat) : findSplit s limit ≤ limit := by
  unfold findSplit
  cases hfs : separatorClasses.findSome? (fun sep => bestBoundary s sep limit) with
  | none => exact le_refl _
  | some i =>
    obtain ⟨sep, _, hbb⟩ := List.exists_of_findSome?_eq_some hfs
    exact (bestBoundary_bounds _ _ _ _ hbb).2

/-- Every piece produced by the splitting recursion is at most the limit. -/
theorem splitTextAux_length_le (limit overlap : Nat) :
    ∀ (fuel : Nat) (s c : List Char), c ∈ splitTextAux limit overlap fuel s →
      c.length ≤ limit := by
  intro fuel
  induction fuel with
  | zero => intro s c h; simp [splitTextAux] at h
  | succ n ih =>
    intro s c h
    simp only [splitTextAux] at h
    by_cases hse : s = []
    · rw [if_pos hse] at h; simp at h
    · rw [if_neg hse] at h
      by_cases hlen : s.length ≤ limit
      · rw [if_pos hlen] at h
        simp only [List.mem_singleton] at h
        subst h
        exact hlen
      · rw [if_neg hlen] at h
        rcases List.mem_cons.mp h with hc | hc
        · subst hc
          rw [List.length_take]
          exact le_trans (min_le_left _ _) (findSplit_le s limit)
        · exact ih _ _ hc

/-- Every piece produced by splitText is at most the limit. -/
theorem splitText_length_le (limit overlap : Nat) (s c : List Char)
    (h : c ∈ splitText limit overlap s) : c.length ≤ limit :=
  splitTextAux_length_le limit overlap _ _ _ h

/-- With fuel available, a non-empty text yields at least one piece. -/
theorem splitTextAux_ne_nil (limit overlap fuel : Nat) (s : List Char)
    (hs : s ≠ []) (hfuel : 0 < fuel) : splitTextAux limit overlap fuel s ≠ [] := by
  cases fuel with
  | zero => omega
  | succ n =>
    simp only [splitTextAux]
    rw [if_neg hs]
    by_cases hlen : s.length ≤ limit
    · rw [if_pos hlen]; simp
    · rw [if_neg hlen]; simp

/-- A non-empty text yields at least one piece. -/
theorem splitText_ne_nil (limit overlap : Nat) (s : List Char) (hs : s ≠ []) :
    splitText limit overlap s ≠ [] := by
  unfold splitText
  apply splitTextAux_ne_nil limit overlap _ _ hs
  cases s with
  | nil => exact absurd rfl hs
  | cons a t => simp

/-- Looking up the key just set returns the new value. -/
theorem metaLookup_metaSet_self : ∀ (m : Metadata) (k : String) (v : MVal),
    metaLookup (metaSet m k v) k = some v := by
  intro m
  induction m with
  | nil => intro k v; simp [metaSet, metaLookup]
  | cons kv rest ih =>
    intro k v
    obtain ⟨k1, v1⟩ := kv
    simp only [metaSet]
    by_cases hk : k1 = k
    · rw [if_pos hk]; simp [metaLookup]
    · rw [if_neg hk]
      simp only [metaLookup]
      rw [if_neg hk]
      exact ih k v

/-- Setting one key leaves lookups of other keys unchanged. -/
theorem metaLookup_metaSet_ne : ∀ (m : Metadata) (ks kq : String) (v : MVal),
    kq ≠ ks → metaLookup (metaSet m ks v) kq = metaLookup m kq := by
  intro m
  induction m with
  | nil =>
    intro ks kq v hne
    simp only [metaSet, metaLookup]
    rw [if_neg (fun he => hne he.symm)]
  | cons kv rest ih =>
    intro ks kq v hne
    obtain ⟨k1, v1⟩ := kv
    simp only [metaSet]
    by_cases hk : k1 = ks
    · rw [if_pos hk]
      simp only [metaLookup]
      have h1 : ¬(ks = kq) := fun he => hne he.symm
      have h2 : ¬(k1 = kq) := fun he => hne (he ▸ hk)
      rw [if_neg h1, if_neg h2]
    · rw [if_neg hk]
      simp only [metaLookup]
      by_cases hq : k1 = kq
      · rw [if_pos hq, if_pos hq]
      · rw [if_neg hq, if_neg hq]
        exact ih ks kq v hne

/-- Setting a key preserves the presence of every key. -/
theorem metaLookup_metaSet_isSome (m : Metadata) (ks : String) (v : MVal)
    (kq : String) (h : (metaLookup m kq).isSome) :
    (metaLookup (metaSet m ks v) kq).isSome := by
  by_cases hk : kq = ks
  · subst hk
    rw [metaLookup_metaSet_self]
    simp
  · rw [metaLookup_metaSet_ne m ks kq v hk]
    exact h

/-- The enhanced metadata records the parent document index. -/
theorem enhance_lookup_parent (m : Metadata) (ci tc csz pdi : Nat) :
    metaLookup (enhanceMetadata m ci tc csz pdi) "parent_document_index" =
      some (.int pdi) :=
  metaLookup_metaSet_self _ _ _

/-- The enhanced metadata records the chunk character length. -/
theorem enhance_lookup_size (m : Metadata) (ci tc csz pdi : Nat) :
    metaLookup (enhanceMetadata m ci tc csz pdi) "chunk_size" = some (.int csz) := by
  unfold enhanceMetadata
  rw [metaLookup_metaSet_ne _ _ _ _ (by decide)]
  exact metaLookup_metaSet_self _ _ _

/-- The enhanced metadata records the total chunk count. -/
theorem enhance_lookup_total (m : Metadata) (ci tc csz pdi : Nat) :
    metaLookup (enhanceMetadata m ci tc csz pdi) "total_chunks" = some (.int tc) := by
  unfold enhanceMetadata
  rw [metaLookup_metaSet_ne _ _ _ _ (by decide), metaLookup_metaSet_ne _ _ _ _ (by decide)]
  exact metaLookup_metaSet_self _ _ _

/-- The enhanced metadata records the chunk index. -/
theorem enhance_lookup_index (m : Metadata) (ci tc csz pdi : Nat) :
    metaLookup (enhanceMetadata m ci tc csz pdi) "chunk_index" = some (.int ci) := by
  unfold enhanceMetadata
  rw [metaLookup_metaSet_ne _ _ _ _ (by decide), metaLookup_metaSet_ne _ _ _ _ (by decide),
    metaLookup_metaSet_ne _ _ _ _ (by decide)]
  exact metaLookup_metaSet_self _ _ _

/-- Enhancement only adds keys: every key present in the parent metadata
is still present afterwards. -/
theorem enhance_superset (m : Metadata) (ci tc csz pdi : Nat) (k : String)
    (h : (metaLookup m k).isSome) :
    (metaLookup (enhanceMetadata m ci tc csz pdi) k).isSome := by
  unfold enhanceMetadata
  exact metaLookup_metaSet_isSome _ _ _ _
    (metaLookup_metaSet_isSome _ _ _ _
      (metaLookup_metaSet_isSome _ _ _ _
        (metaLookup_metaSet_isSome _ _ _ _ h)))

/-- Every chunk built by enhanceChunks sits at a definite position j and
is the j-th piece with metadata enhanced at index ci + j. -/
theorem enhanceChunks_elim (pm : Metadata) (tc pdi : Nat) :
    ∀ (ps : List (List Char)) (ci : Nat) (c : Document),
      c ∈ enhanceChunks pm tc pdi ci ps →
      ∃ j p, ps.get? j = some p ∧
        (enhanceChunks pm tc pdi ci ps).get? j = some c ∧
        c = { page_content := p,
              metadata := enhanceMetadata pm (ci + j) tc p.length pdi } := by
  intro ps
  induction ps with
  | nil => intro ci c h; simp [enhanceChunks] at h
  | cons p ps ih =>
    intro ci c h
    simp only [enhanceChunks] at h
    rcases List.mem_cons.mp h with hc | hc
    · refine ⟨0, p, List.get?_cons_zero, ?_, ?_⟩
      · simp only [enhanceChunks, List.get?_cons_zero, hc]
      · rw [hc]
        rfl
    · obtain ⟨j, q, hq, hg, hc2⟩ := ih (ci + 1) c hc
      refine ⟨j + 1, q, ?_, ?_, ?_⟩
      · rw [List.get?_cons_succ]; exact hq
      · simp only [enhanceChunks, List.get?_cons_succ]; exact hg
      · have harith : ci + 1 + j = ci + (j + 1) := by omega
        rw [hc2, harith]

/-- Every chunk produced by the document loop comes from a document at a
definite index, with the parent index offset by the loop start. -/
theorem processDocsFull_mem (limit overlap : Nat) :
    ∀ (docs : List Document) (start : Nat) (c : Document),
      c ∈ (processDocsFull limit overlap start docs).1 →
      ∃ i d, docs.get? i = some d ∧ c ∈ perDocChunks limit overlap (start + i) d := by
  intro docs
  induction docs with
  | nil => intro start c h; simp [processDocsFull] at h
  | cons d ds ih =>
    intro start c h
    simp only [processDocsFull] at h
    rcases List.mem_append.mp h with hc | hc
    · exact ⟨0, d, List.get?_cons_zero, by simpa using hc⟩
    · obtain ⟨i, d2, hget, hmem⟩ := ih (start + 1) c hc
      refine ⟨i + 1, d2, by rw [List.get?_cons_succ]; exact hget, ?_⟩
      have harith : start + 1 + i = start + (i + 1) := by omega
      rwa [harith] at hmem

/-- The document loop passes every input document through unchanged. -/
theorem processDocsFull_snd (limit overlap : Nat) :
    ∀ (docs : List Document) (start : Nat),
      (processDocsFull limit overlap start docs).2 = docs := by
  intro docs
  induction docs with
  | nil => intro start; rfl
  | cons d ds ih =>
    intro start
    simp only [processDocsFull]
    rw [ih]

/-- A document with non-empty content contributes at least one chunk
tagged with its parent index. -/
theorem processDocsFull_yields (limit overlap : Nat) :
    ∀ (docs : List Document) (start i : Nat) (d : Document),
      docs.get? i = some d → d.page_content ≠ [] →
      ∃ c ∈ (processDocsFull limit overlap start docs).1,
        metaLookup c.metadata "parent_document_index" = some (.int (start + i)) := by
  intro docs
  induction docs with
  | nil => intro start i d h; simp at h
  | cons d0 ds ih =>
    intro start i d hget hne
    cases i with
    | zero =>
      have hd : d0 = d := by
        rw [List.get?_cons_zero] at hget
        exact Option.some.inj hget
      subst hd
      cases hp : splitText limit overlap d0.page_content with
      | nil => exact absurd hp (splitText_ne_nil _ _ _ hne)
      | cons p ps =>
        refine ⟨{ page_content := p,
                  metadata := enhanceMetadata d0.metadata 0 (p :: ps).length
                    p.length start }, ?_, ?_⟩
        · simp only [processDocsFull]
          apply List.mem_append_left
          unfold perDocChunks
          rw [hp]
          simp only [enhanceChunks]
          exact List.mem_cons_self _ _
        · simp only
          rw [enhance_lookup_parent]
          norm_num
    | succ i2 =>
      rw [List.get?_cons_succ] at hget
      obtain ⟨c, hcmem, hlook⟩ := ih (start + 1) i2 d hget hne
      refine ⟨c, ?_, ?_⟩
      · simp only [processDocsFull]
        exact List.mem_append_right _ hcmem
      · have hcast : ((start + 1 : Nat) : Int) + (i2 : Int) =
            (start : Int) + ((i2 + 1 : Nat) : Int) := by push_cast; ring
        rw [hcast] at hlook
        exact hlook

/-! ## Claim theorems -/

/-- Claim C1: for every document list and every valid parameter pair with
0 ≤ chunk_overlap < chunk_size, every chunk returned by
split_documents_into_semantic_chunks has content length at most
chunk_size; under the spec-modelled splitting core the character-level
fallback keeps every chunk within the bound, so the permitted exception
never occurs. -/
theorem C1_chunk_length_bounded (documents out : List Document) (cs co : Int)
    (h1 : 0 ≤ co) (h2 : co < cs)
    (hok : split_documents_into_semantic_chunks documents cs co = .ok out) :
    ∀ c ∈ out, c.page_content.length ≤ cs.toNat := by
  intro c hc
  unfold split_documents_into_semantic_chunks
    split_documents_into_semantic_chunks_full at hok
  split_ifs at hok with hv1 hv2 hv3 hv4
  · simp [Except.map] at hok
  · simp [Except.map] at hok
  · simp [Except.map] at hok
  · simp only [Except.map] at hok
    injection hok with h
    subst h
    simp at hc
  · simp only [Except.map] at hok
    injection hok with h
    subst h
    obtain ⟨i, d, hget, hmem⟩ := processDocsFull_mem _ _ _ _ _ hc
    unfold perDocChunks at hmem
    obtain ⟨j, p, hp, hgc, hceq⟩ := enhanceChunks_elim _ _ _ _ _ _ hmem
    have hpmem : p ∈ splitText cs.toNat co.toNat d.page_content := List.get?_mem hp
    have hlen := splitText_length_le _ _ _ _ hpmem
    rw [hceq]
    exact hlen

/-- Claim C1 witness: the bound at a concrete run of the splitter. -/
theorem C1_chunk_length_bounded_witness :
    exChunkHi.page_content.length ≤ (4 : Int).toNat :=
  C1_chunk_length_bounded [exDocHi] [exChunkHi] 4 1 (by decide) (by decide) rfl
    exChunkHi (List.mem_singleton_self _)

/-- Claim C2: split_documents_into_semantic_chunks fails with
InvalidInputError (a ValueError) if and only if chunk_size ≤ 0 or
chunk_overlap < 0 or chunk_overlap ≥ chunk_size; the condition depends on
the parameters alone, so the rejection precedes any document processing,
chunk_overlap = chunk_size - 1 is accepted and chunk_overlap = chunk_size
is rejected. -/
theorem C2_split_validation_iff (documents : List Document) (cs co : Int) :
    (∃ msg, split_documents_into_semantic_chunks documents cs co =
      .error (.invalidInput msg)) ↔ (cs ≤ 0 ∨ co < 0 ∨ co ≥ cs) := by
  unfold split_documents_into_semantic_chunks
    split_documents_into_semantic_chunks_full
  split_ifs with hv1 hv2 hv3 hv4 <;> simp [Except.map] <;> omega

/-- Claim C3: every chunk's metadata keeps every key of its parent
document's metadata and additionally records the chunk's 0-based index
within the parent, the parent's total chunk count, the chunk's character
length, and the parent's position in the input sequence. -/
theorem C3_chunk_metadata_augmented (documents out : List Document) (cs co : Int)
    (h1 : 0 ≤ co) (h2 : co < cs)
    (hok : split_documents_into_semantic_chunks documents cs co = .ok out) :
    ∀ c ∈ out, ∃ i d j, documents.get? i = some d ∧
      (perDocChunks cs.toNat co.toNat i d).get? j = some c ∧
      (∀ k, (metaLookup d.metadata k).isSome → (metaLookup c.metadata k).isSome) ∧
      metaLookup c.metadata "chunk_index" = some (.int j) ∧
      metaLookup c.metadata "total_chunks" =
        some (.int (splitText cs.toNat co.toNat d.page_content).length) ∧
      metaLookup c.metadata "chunk_size" = some (.int c.page_content.length) ∧
      metaLookup c.metadata "parent_document_index" = some (.int i) := by
  intro c hc
  unfold split_documents_into_semantic_chunks
    split_documents_into_semantic_chunks_full at hok
  split_ifs at hok with hv1 hv2 hv3 hv4
  · simp [Except.map] at hok
  · simp [Except.map] at hok
  · simp [Except.map] at hok
  · simp only [Except.map] at hok
    injection hok with h
    subst h
    simp at hc
  · simp only [Except.map] at hok
    injection hok with h
    subst h
    obtain ⟨i, d, hget, hmem⟩ := processDocsFull_mem _ _ _ _ _ hc
    rw [Nat.zero_add] at hmem
    have hmem2 := hmem
    unfold perDocChunks at hmem2
    obtain ⟨j, p, hp, hgc, hceq⟩ := enhanceChunks_elim _ _ _ _ _ _ hmem2
    rw [Nat.zero_add] at hceq
    refine ⟨i, d, j, hget, ?_, ?_, ?_, ?_, ?_, ?_⟩
    · unfold perDocChunks
      exact hgc
    · intro k hk
      rw [hceq]
      exact enhance_superset _ _ _ _ _ _ hk
    · rw [hceq]
      exact enhance_lookup_index _ _ _ _ _
    · rw [hceq]
      exact enhance_lookup_total _ _ _ _ _
    · rw [hceq]
      exact enhance_lookup_size _ _ _ _ _
    · rw [hceq]
      exact enhance_lookup_parent _ _ _ _ _

/-- Claim C3 witness: the metadata facts at a concrete run, instantiated
at the single chunk the run produces. -/
theorem C3_chunk_metadata_augmented_witness :
    ∃ i d j, [exDocHi].get? i = some d ∧
      (perDocChunks (4 : Int).toNat (1 : Int).toNat i d).get? j = some exChunkHi ∧
      (∀ k, (metaLookup d.metadata k).isSome →
        (metaLookup exChunkHi.metadata k).isSome) ∧
      metaLookup exChunkHi.metadata "chunk_index" = some (.int j) ∧
      metaLookup exChunkHi.metadata "total_chunks" =
        some (.int (splitText (4 : Int).toNat (1 : Int).toNat d.page_content).length) ∧
      metaLookup exChunkHi.metadata "chunk_size" =
        some (.int exChunkHi.page_content.length) ∧
      metaLookup exChunkHi.metadata "parent_document_index" = some (.int i) :=
  C3_chunk_metadata_augmented [exDocHi] [exChunkHi] 4 1 (by decide) (by decide) rfl
    exChunkHi (List.mem_singleton_self _)

/-- Claim C4: the loader fails with NotFoundError (FileNotFoundError)
when the path does not exist, fails with InvalidInputError (ValueError)
when the path is not a directory, and returns the empty sequence without
error when the directory holds zero matching PDF files. -/
theorem C4_loader_path_validation (data_directory : String) :
    load_medical_documents_from_directory data_directory .missing =
        .error (.notFound ("Directory not found: " ++ data_directory)) ∧
    load_medical_documents_from_directory data_directory .notDir =
        .error (.invalidInput ("Path is not a directory: " ++ data_directory)) ∧
    load_medical_documents_from_directory data_directory (.dir []) = .ok [] :=
  ⟨rfl, rfl, rfl⟩

/-- Claim C5: a file whose open or parse fails is skipped while the
loader still returns the documents of all remaining readable files; the
call returns normally, so no exception escapes the batch. -/
theorem C5_loader_skips_failing_file (data_directory : String)
    (before after : List PdfFile) (bad : PdfFile) (hbad : bad.pages = none) :
    load_medical_documents_from_directory data_directory
        (.dir (before ++ bad :: after)) =
      .ok (before.filterMap processFile ++ after.filterMap processFile) := by
  have hne : before ++ bad :: after ≠ [] := by
    intro he
    rcases List.append_eq_nil.mp he with ⟨-, h2⟩
    exact List.cons_ne_nil _ _ h2
  have hskip : processFile bad = none := by
    unfold processFile
    rw [hbad]
  simp only [load_medical_documents_from_directory]
  rw [if_neg hne, List.filterMap_append]
  simp [List.filterMap_cons, hskip]

/-- Claim C5 witness: a concrete batch of three files with the middle one
corrupted. -/
theorem C5_loader_skips_failing_file_witness :
    load_medical_documents_from_directory "Documents/"
        (.dir ([exGoodFile1] ++ exBadFile :: [exGoodFile2])) =
      .ok ([exGoodFile1].filterMap processFile ++ [exGoodFile2].filterMap processFile) :=
  C5_loader_skips_failing_file "Documents/" [exGoodFile1] [exGoodFile2] exBadFile rfl

/-- Claim C6: a document with non-empty content yields at least one chunk
(under the spec-modelled splitting core the character-level fallback
guarantees the splitter never returns zero pieces for non-empty text). -/
theorem C6_nonempty_doc_yields_chunk (documents out : List Document) (cs co : Int)
    (i : Nat) (d : Document) (h1 : 0 ≤ co) (h2 : co < cs)
    (hok : split_documents_into_semantic_chunks documents cs co = .ok out)
    (hget : documents.get? i = some d) (hne : d.page_content ≠ []) :
    ∃ c ∈ out, metaLookup c.metadata "parent_document_index" = some (.int i) := by
  unfold split_documents_into_semantic_chunks
    split_documents_into_semantic_chunks_full at hok
  split_ifs at hok with hv1 hv2 hv3 hv4
  · simp [Except.map] at hok
  · simp [Except.map] at hok
  · simp [Except.map] at hok
  · rw [hv4] at hget
    simp at hget
  · simp only [Except.map] at hok
    injection hok with h
    subst h
    obtain ⟨c, hcmem, hlook⟩ := processDocsFull_yields _ _ _ 0 _ _ hget hne
    refine ⟨c, hcmem, ?_⟩
    simpa using hlook

/-- Claim C6 witness: a concrete non-empty document yields a chunk. -/
theorem C6_nonempty_doc_yields_chunk_witness :
    ∃ c ∈ [exChunkHi],
      metaLookup c.metadata "parent_document_index" = some (.int (0 : Nat)) :=
  C6_nonempty_doc_yields_chunk [exDocHi] [exChunkHi] 4 1 0 exDocHi (by decide)
    (by decide) rfl rfl (by decide)

/-- Claim C7: the splitter is deterministic: identical document sequences
and identical chunk_size and chunk_overlap parameters yield identical
chunk contents in identical order with identical per-chunk metadata. -/
theorem C7_split_deterministic (docs1 docs2 : List Document) (cs1 cs2 co1 co2 : Int)
    (hdocs : docs1 = docs2) (hcs : cs1 = cs2) (hco : co1 = co2) :
    split_documents_into_semantic_chunks docs1 cs1 co1 =
      split_documents_into_semantic_chunks docs2 cs2 co2 := by
  rw [hdocs, hcs, hco]

/-- Claim C7 witness: two identical concrete runs agree. -/
theorem C7_split_deterministic_witness :
    split_documents_into_semantic_chunks [exDocHi] 4 1 =
      split_documents_into_semantic_chunks [exDocHi] 4 1 :=
  C7_split_deterministic [exDocHi] [exDocHi] 4 4 1 1 rfl rfl rfl

/-- Claim C8: the initializer self-tests the freshly constructed model by
embedding the fixed sample query and returns a handle exactly when
construction and the self-test both succeed; the handle is the fully
constructed model, and on any failure the result is none, never a
partial handle. -/
theorem C8_initializer_fail_fast (env : EmbedEnv) (model_name : String) :
    ∀ m, initialize_medical_embedding_model env model_name = some m ↔
      (env.construct (medicalModelConfiguration model_name) = .ok m ∧
       ∃ v, env.embed_query m sampleMedicalQuery = .ok v) := by
  intro m
  constructor
  · intro h
    unfold initialize_medical_embedding_model at h
    cases hc : env.construct (medicalModelConfiguration model_name) with
    | error e =>
      rw [hc] at h
      simp at h
    | ok m2 =>
      rw [hc] at h
      have h2 : selfTestResult env m2 = some m := h
      unfold selfTestResult at h2
      cases hq : env.embed_query m2 sampleMedicalQuery with
      | error e2 =>
        rw [hq] at h2
        simp at h2
      | ok v0 =>
        rw [hq] at h2
        have h3 : some m2 = some m := h2
        injection h3 with hm
        subst hm
        exact ⟨rfl, v0, hq⟩
  · rintro ⟨hc2, v, hqv⟩
    unfold initialize_medical_embedding_model
    rw [hc2]
    have hgoal : selfTestResult env m = some m := by
      unfold selfTestResult
      rw [hqv]
    exact hgoal

/-- Claim C9: the splitter never mutates its input documents: the
documents threaded through the call emerge unchanged, the metadata
augmentation writing a fresh copy onto newly created chunk objects
only. -/
theorem C9_split_preserves_inputs (documents : List Document) (cs co : Int)
    (chunks docsAfter : List Document)
    (h : split_documents_into_semantic_chunks_full documents cs co =
      .ok (chunks, docsAfter)) :
    docsAfter = documents := by
  unfold split_documents_into_semantic_chunks_full at h
  split_ifs at h with hv1 hv2 hv3 hv4
  · injection h with h2
    have h3 : ([] : List Document) = docsAfter := congrArg Prod.snd h2
    rw [hv4]
    exact h3.symm
  · injection h with h2
    have h3 : (processDocsFull cs.toNat co.toNat 0 documents).2 = docsAfter :=
      congrArg Prod.snd h2
    rw [processDocsFull_snd] at h3
    exact h3.symm

/-- Claim C9 witness: a concrete run leaves the input documents intact. -/
theorem C9_split_preserves_inputs_witness : ([exDocHi] : List Document) = [exDocHi] :=
  C9_split_preserves_inputs [exDocHi] 4 1 [exChunkHi] [exDocHi] rfl

/-- Claim C10: every document the loader returns has non-empty content
carrying no leading or trailing whitespace. -/
theorem C10_loader_output_trimmed (data_directory : String) (ps : PathState)
    (out : List Document)
    (hok : load_medical_documents_from_directory data_directory ps = .ok out) :
    ∀ d ∈ out, d.page_content ≠ [] ∧
      (∀ c, d.page_content.head? = some c → c.isWhitespace = false) ∧
      (∀ c, d.page_content.getLast? = some c → c.isWhitespace = false) := by
  intro d hd
  cases ps with
  | missing => exact absurd hok (by simp [load_medical_documents_from_directory])
  | notDir => exact absurd hok (by simp [load_medical_documents_from_directory])
  | dir pdf_files =>
    simp only [load_medical_documents_from_directory] at hok
    by_cases hemp : pdf_files = []
    · rw [if_pos hemp] at hok
      injection hok with h
      subst h
      simp at hd
    · rw [if_neg hemp] at hok
      injection hok with h
      subst h
      obtain ⟨f, -, hpf⟩ := List.mem_filterMap.mp hd
      unfold processFile at hpf
      split at hpf
      · exact absurd hpf (by simp)
      · rename_i pages heq
        by_cases hz : trimChars (pages.foldl processPage []) = []
        · rw [if_pos hz] at hpf
          exact absurd hpf (by simp)
        · rw [if_neg hz] at hpf
          injection hpf with h2
          subst h2
          exact ⟨hz, fun c hc => trimChars_head _ _ hc,
            fun c hc => trimChars_getLast _ _ hc⟩

/-- Claim C10 witness: the loader output for a concrete readable file,
instantiated at the single document the run produces. -/
theorem C10_loader_output_trimmed_witness :
    exDocA.page_content ≠ [] ∧
      (∀ c, exDocA.page_content.head? = some c → c.isWhitespace = false) ∧
      (∀ c, exDocA.page_content.getLast? = some c → c.isWhitespace = false) :=
  C10_loader_output_trimmed "Documents/" (.dir [exGoodFile1]) [exDocA] rfl
    exDocA (List.mem_singleton_self _)

end MedChatbot
